import Mathlib

/-!
Verification of the RAFOO++ dispatch/runtime core.

This file shallowly embeds the type model (lang_types.py), the linker
(parser.py, Parser._resolve_and_link) and the interpreter core
(interpreter.py) in Lean, and settles the specification's claims against it.

Modelling conventions:
- Python dicts with insertion order are modelled as association lists;
  `alookup` is dict lookup, `alistUpsert` is dict assignment.
- Python object identity (`is`, `id()`, dataclass eq=False set membership)
  is modelled as structural equality for linked type records (in a linked
  type table, names are unique dict keys, so two structurally equal linked
  records are the same object), and as an explicit `id : Nat` field for
  heap instances.
- A linked ClassDef is represented by the inductive `Ty`. The parser
  forces an INTERFACE record's base/interfaces/fields to be empty
  (parser.py, "INTERFACE ignorišemo base/fields/interfaces") and the base
  chain of a linked table is acyclic (link step 3), so the linked records
  form a tree with three shapes: an interface (only a name and declared
  methods), a class without a base, and a class with a base.
- Fallible code returns `Except String`.
-/

set_option maxHeartbeats 1000000

namespace RAFOOpp

/-- Association-list lookup; mirrors Python dict lookup (keys are unique
in real dicts; this returns the first match). -/
def alookup {κ α : Type} [DecidableEq κ] : List (κ × α) → κ → Option α
  | [], _ => none
  | (k, v) :: rest, m => if k = m then some v else alookup rest m

/-- Association-list upsert; mirrors Python dict assignment d[k] = v
(replaces the value in place if the key exists, else appends). -/
def alistUpsert {κ α : Type} [DecidableEq κ] : List (κ × α) → κ → α → List (κ × α)
  | [], k, v => [(k, v)]
  | (k0, v0) :: rest, k, v =>
      if k0 = k then (k0, v) :: rest else (k0, v0) :: alistUpsert rest k v

/-- All keys of an association list are distinct (always true for a list
that models a Python dict). -/
def distinctKeys {α : Type} : List (String × α) → Bool
  | [] => true
  | (k, _) :: rest => !(rest.any (fun p => p.1 == k)) && distinctKeys rest

/-- Mirrors lang_types.is_int: the token matches the regex -?[0-9]+ . -/
def isIntTok (s : String) : Bool :=
  match s.data with
  | [] => false
  | c :: rest =>
      if c = '-' then !rest.isEmpty && rest.all (fun d => d.isDigit)
      else (c :: rest).all (fun d => d.isDigit)

/-- Decimal value of a digit string. -/
def digitsVal (l : List Char) : Nat :=
  l.foldl (fun acc c => acc * 10 + (c.toNat - 48)) 0

/-- Mirrors Python int(tok) on a token accepted by is_int. -/
def parseIntTok (s : String) : Int :=
  match s.data with
  | '-' :: rest => - (Int.ofNat (digitsVal rest))
  | cs => Int.ofNat (digitsVal cs)

/-- The data an INTERFACE record carries after linking: its name and its
declared method map (lang_types.ClassDef with is_interface = True; the
parser empties base/interfaces/fields for interfaces). -/
structure IfaceData where
  iname : String
  imethods : List (String × List String)
deriving DecidableEq, Repr

/-- A linked type record (lang_types.ClassDef after Parser._resolve_and_link
resolved base and interfaces into direct references): an interface, a class
without a base, or a class with a base class. The `is_interface` flag of
the source corresponds to the constructor. -/
inductive Ty : Type where
  | iface (d : IfaceData) : Ty
  | root (name : String) (ifs : List IfaceData) (fields : List String)
      (methods : List (String × List String)) : Ty
  | derived (name : String) (base : Ty) (ifs : List IfaceData) (fields : List String)
      (methods : List (String × List String)) : Ty
deriving DecidableEq, Repr

def Ty.name : Ty → String
  | .iface d => d.iname
  | .root n _ _ _ => n
  | .derived n _ _ _ _ => n

/-- The is_interface flag. -/
def Ty.isInterface : Ty → Bool
  | .iface _ => true
  | .root _ _ _ _ => false
  | .derived _ _ _ _ _ => false

/-- The linked base reference. -/
def Ty.base : Ty → Option Ty
  | .derived _ b _ _ _ => some b
  | _ => none

/-- The linked interface references of a class. -/
def Ty.ifs : Ty → List IfaceData
  | .iface _ => []
  | .root _ l _ _ => l
  | .derived _ _ l _ _ => l

/-- The fields this type itself introduces. -/
def Ty.fields : Ty → List String
  | .iface _ => []
  | .root _ _ f _ => f
  | .derived _ _ _ f _ => f

/-- The declared method map (method name to token list, insertion order). -/
def Ty.methods : Ty → List (String × List String)
  | .iface d => d.imethods
  | .root _ _ _ m => m
  | .derived _ _ _ _ m => m

/-- Mirrors ClassDef.compute_layout / all_fields: interfaces have no
fields; a class lays out its base fields first, then its own. The linker
computes layouts in base-before-derived topological order, which the
structural recursion captures. -/
def Ty.allFields : Ty → List String
  | .iface _ => []
  | .root _ _ fs _ => fs
  | .derived _ b _ fs _ => Ty.allFields b ++ fs

/-- Index assigned to a name by the Python dict comprehension mapping n to
i for i, n in enumerate(l): the index of the LAST occurrence of n in l. -/
def dictIdx : List String → String → Option Nat
  | [], _ => none
  | x :: xs, f =>
      match dictIdx xs f with
      | some i => some (i + 1)
      | none => if x = f then some 0 else none

/-- Mirrors ClassDef.field_idx reading the _field_index dict built by
compute_layout from all_fields. -/
def Ty.fieldIdx (c : Ty) (f : String) : Option Nat :=
  dictIdx c.allFields f

/-- The base chain of a type starting at the type itself: the sequence of
nodes visited by the while-loops over `.base` in ClassDef. -/
def Ty.chain : Ty → List Ty
  | .iface d => [.iface d]
  | .root n l fs ms => [.root n l fs ms]
  | .derived n b l fs ms => .derived n b l fs ms :: b.chain

/-- Mirrors ClassDef.is_subclass_of: false if either side is an interface,
else walk the base chain comparing identity (structural equality here;
the walk includes the type itself, so the relation is reflexive). -/
def Ty.isSubclassOf (c other : Ty) : Bool :=
  !c.isInterface && !other.isInterface && decide (other ∈ c.chain)

/-- Mirrors ClassDef.all_interfaces: an interface yields itself; a class
collects the interface lists of every node along its base chain. Python
builds a set with identity-based membership, so only membership in this
list is meaningful. -/
def Ty.allInterfaces : Ty → List IfaceData
  | .iface d => [d]
  | .root _ l _ _ => l
  | .derived _ b l _ _ => l ++ b.allInterfaces

/-- Mirrors ClassDef.implements_interface. -/
def Ty.implementsInterface (c i : Ty) : Bool :=
  match i with
  | .iface d => decide (d ∈ c.allInterfaces)
  | _ => false

/-- Mirrors ClassDef.lookup_method: an interface consults only its own
declared methods; a class walks the base chain. -/
def Ty.lookupMethod : Ty → String → Option (List String)
  | .iface d, m => alookup d.imethods m
  | .root _ _ _ ms, m => alookup ms m
  | .derived _ b _ _ ms, m =>
      match alookup ms m with
      | some ts => some ts
      | none => b.lookupMethod m

/-- Mirrors Interpreter._lookup_with_steps: walk the chain from the start
type, returning the first hit together with the number of base hops taken
(the full chain length when the lookup fails). -/
def Ty.lookupWithSteps : Ty → String → Option (List String) × Nat
  | .iface d, m =>
      match alookup d.imethods m with
      | some ts => (some ts, 0)
      | none => (none, 1)
  | .root _ _ _ ms, m =>
      match alookup ms m with
      | some ts => (some ts, 0)
      | none => (none, 1)
  | .derived _ b _ _ ms, m =>
      match alookup ms m with
      | some ts => (some ts, 0)
      | none =>
          let r := b.lookupWithSteps m
          (r.1, r.2 + 1)

/-- Interface slot assignment (link step 6): slot = position of the method
in declaration order, counting from i. -/
def enumSlotsFrom (i : Nat) : List (String × List String) → List (String × Nat)
  | [] => []
  | (m, _) :: rest => (m, i) :: enumSlotsFrom (i + 1) rest

/-- One vtable-construction step (link step 7, loop body): an override
replaces the token sequence at the existing slot in place; a new method is
appended at a fresh slot. -/
def vtStep (acc : List (String × Nat) × List (List String))
    (entry : String × List String) : List (String × Nat) × List (List String) :=
  match alookup acc.1 entry.1 with
  | some slot => (acc.1, acc.2.set slot entry.2)
  | none => (acc.1 ++ [(entry.1, acc.2.length)], acc.2 ++ [entry.2])

/-- Mirrors link steps 6 and 7: method_slot and vtable_tokens after
linking. An interface gets declaration-order slots and an empty vtable; a
class copies its base tables and folds its own declared methods in order.
The linker's topological order (base before derived) is the structural
recursion. -/
def Ty.vtData : Ty → List (String × Nat) × List (List String)
  | .iface d => (enumSlotsFrom 0 d.imethods, [])
  | .root _ _ _ ms => ms.foldl vtStep ([], [])
  | .derived _ b _ _ ms => ms.foldl vtStep b.vtData

/-- The method_slot dict after linking. -/
def Ty.methodSlot (c : Ty) : List (String × Nat) :=
  c.vtData.1

/-- The vtable_tokens array after linking. -/
def Ty.vtableTokens (c : Ty) : List (List String) :=
  c.vtData.2

/-- Well-formedness facts every linked type table guarantees along a base
chain: every node's method map is a dict (distinct keys) and a class's
base is a class (link step 1 rejects an interface base). -/
def Ty.wfChain : Ty → Bool
  | .iface d => distinctKeys d.imethods
  | .root _ _ _ ms => distinctKeys ms
  | .derived _ b _ _ ms => distinctKeys ms && !b.isInterface && b.wfChain

/-- Link step 5: no class redeclares a field inherited from its base chain
(holds of every table that linked successfully). -/
def Ty.noRedecl : Ty → Bool
  | .iface _ => true
  | .root _ _ _ _ => true
  | .derived _ b _ fs _ => fs.all (fun f => decide (f ∉ Ty.allFields b)) && b.noRedecl

/-! ## Interpreter core (interpreter.py) -/

/-- A compiled call plan: a list of (is_field, value) pairs
(interpreter.MethodPlan). is_field = true means read values[value] from
the invoked object; is_field = false emits the literal value. -/
abbrev MethodPlan := List (Bool × Int)

/-- Mirrors Interpreter._compile_plan: the loop over the token list: an
integer token becomes a literal entry; any other token is resolved
through the runtime type's field index and fails if unknown. -/
def compilePlan (runtime : Ty) : List String → Except String MethodPlan
  | [] => Except.ok []
  | tok :: rest =>
      let op : Except String (Bool × Int) :=
        if isIntTok tok then Except.ok (false, parseIntTok tok)
        else
          match runtime.fieldIdx tok with
          | some idx => Except.ok (true, (idx : Int))
          | none => Except.error "Unknown field in method"
      match op with
      | Except.error e => Except.error e
      | Except.ok o =>
          match compilePlan runtime rest with
          | Except.error e => Except.error e
          | Except.ok plan => Except.ok (o :: plan)

/-- Evaluating a plan against an object's field values (the loop in
Interpreter._exec_call producing the printed integer sequence). -/
def evalPlan (values : List Int) (plan : MethodPlan) : List Int :=
  plan.map (fun op => if op.1 then values.getD op.2.toNat 0 else op.2)

/-- A heap object (lang_types.Instance). The id field models Python object
identity (id()), which the collector uses for its root set. -/
structure Instance where
  id : Nat
  cls : Ty
  values : List Int
deriving DecidableEq, Repr

/-- An environment binding (interpreter.VarBinding). -/
structure VarBinding where
  inst : Instance
  viewCls : Ty
deriving DecidableEq, Repr

/-- The dispatch-relevant configuration toggles (interpreter.Config). -/
structure RCfg where
  enableVtable : Bool
  enableCache : Bool
deriving DecidableEq, Repr

/-- Global plan-cache key: (mode, view name, runtime name, method name),
as built in Interpreter._resolve_call_plan. -/
abbrev CacheKey := String × String × String × String

abbrev PlanCache := List (CacheKey × MethodPlan)

/-- Mirrors the build loop of Interpreter._itable_plan on a cold cache:
resolve every method of the interface (in slot order, which is
declaration order) by a linear walk from the runtime type, compile each,
and sum the recorded steps. Fails if any method is missing. -/
def itableBuild (runtime : Ty) : List (String × Nat) → Except String (List MethodPlan × Nat)
  | [] => Except.ok ([], 0)
  | (m, _) :: rest =>
      let r := runtime.lookupWithSteps m
      match r.1 with
      | none => Except.error "Class does not implement interface method"
      | some ts =>
          match compilePlan runtime ts with
          | Except.error e => Except.error e
          | Except.ok p =>
              match itableBuild runtime rest with
              | Except.error e => Except.error e
              | Except.ok (ps, st) => Except.ok (p :: ps, r.2 + st)

/-- Mirrors Interpreter._itable_plan with a cold per-type cache: build the
slot-aligned plan array for (runtime, iface), then return the plan at the
interface's slot for the method (the lazily built array is monotone, so a
warm call returns the same plan). The Nat is the resolve_steps delta the
cold build adds. -/
def itablePlan (runtime iface : Ty) (m : String) : Except String (MethodPlan × Nat) :=
  match itableBuild runtime iface.methodSlot with
  | Except.error e => Except.error e
  | Except.ok (plans, st) =>
      match alookup iface.methodSlot m with
      | none => Except.error "No interface slot for method"
      | some slot =>
          match plans.get? slot with
          | none => Except.error "Interface slot out of range"
          | some p => Except.ok (p, st)

/-- The token-selection block of Interpreter._resolve_call_plan on the
fallback (non-vtable) path: a static call through an interface view
requires the implements relation, consults the interface's own tokens and
falls back to a walk from the runtime type when that yields no tokens or
an empty list; a static call through a class view walks from the view
type; a dynamic call walks from the runtime type (after the implements
check when the view is an interface). -/
def fallbackTokens (view runtime : Ty) (m : String) (dynamic : Bool) :
    Except String (Option (List String) × Nat) :=
  if !dynamic then
    if view.isInterface then
      if !(runtime.implementsInterface view) then
        Except.error "Runtime type does not implement interface"
      else
        let r := view.lookupWithSteps m
        if r.1 = none || r.1 = some [] then Except.ok (runtime.lookupWithSteps m)
        else Except.ok r
    else Except.ok (view.lookupWithSteps m)
  else
    if view.isInterface && !(runtime.implementsInterface view) then
      Except.error "Runtime type does not implement interface"
    else Except.ok (runtime.lookupWithSteps m)

/-- Mirrors Interpreter._resolve_call_plan. Returns the plan, the updated
global plan cache, and the delta the call adds to the resolve_steps
metric (metrics are counted when enabled; the vtable class path adds 0
steps, a cold itable build adds its walk total, a cache hit adds 0, and a
fallback miss adds the linear walk's step count). The per-type lazy
vtable/itable caches are modelled cold; they are monotone, so the plan a
warm call returns is the same value. -/
def resolveCallPlan (cfg : RCfg) (cache : PlanCache) (view runtime : Ty)
    (m : String) (dynamic : Bool) : Except String (MethodPlan × PlanCache × Nat) :=
  if view.lookupMethod m = none then
    Except.error "Method not found in view type or its bases"
  else
    let mode := if dynamic then "dyn" else "static"
    let key : CacheKey := (mode, view.name, runtime.name, m)
    if dynamic && cfg.enableVtable then
      if view.isInterface then
        if !(runtime.implementsInterface view) then
          Except.error "Runtime type does not implement interface"
        else
          match itablePlan runtime view m with
          | Except.error e => Except.error e
          | Except.ok (p, st) => Except.ok (p, cache, st)
      else
        if !(runtime.isSubclassOf view) && !(runtime = view) then
          Except.error "Runtime type is not a subclass of view type"
        else
          match alookup view.methodSlot m with
          | none => Except.error "Internal: no slot for method in view"
          | some slot =>
              match runtime.vtableTokens.get? slot with
              | none => Except.error "Vtable slot out of range"
              | some toks =>
                  match compilePlan runtime toks with
                  | Except.error e => Except.error e
                  | Except.ok p => Except.ok (p, cache, 0)
    else
      match (if cfg.enableCache then alookup cache key else none) with
      | some p => Except.ok (p, cache, 0)
      | none =>
          match fallbackTokens view runtime m dynamic with
          | Except.error e => Except.error e
          | Except.ok (none, _) => Except.error "Method not found (resolved)"
          | Except.ok (some toks, steps) =>
              match compilePlan runtime toks with
              | Except.error e => Except.error e
              | Except.ok plan =>
                  let cache2 := if cfg.enableCache then alistUpsert cache key plan else cache
                  Except.ok (plan, cache2, steps)

/-- Mirrors Interpreter._instantiate, threading the heap explicitly: the
arity check happens before the object is appended, so on any failure the
returned heap is the input heap. objId models the fresh Python identity
of the new object. -/
def instantiate (classes : List (String × Ty)) (clsName : String) (args : List Int)
    (heap : List Instance) (objId : Nat) : Except String Instance × List Instance :=
  match alookup classes clsName with
  | none => (Except.error "Unknown class", heap)
  | some cls =>
      if cls.isInterface then (Except.error "Cannot instantiate an interface", heap)
      else if cls.allFields.length ≠ args.length then
        (Except.error "Constructor arity mismatch", heap)
      else
        let inst : Instance := ⟨objId, cls, args⟩
        (Except.ok inst, heap ++ [inst])

/-- Mirrors Interpreter._exec_free: remove the binding, failing when the
name is unknown. -/
def execFree (env : List (String × VarBinding)) (name : String) :
    Except String (List (String × VarBinding)) :=
  if (alookup env name).isSome then
    Except.ok (env.filter (fun p => p.1 ≠ name))
  else Except.error "Unknown variable"

/-- Mirrors Interpreter._gc_collect: roots are the ids of instances
referenced by any environment binding; the heap is filtered down to the
root set; the second component is the collected count. -/
def gcCollect (env : List (String × VarBinding)) (heap : List Instance) :
    List Instance × Nat :=
  let roots := env.map (fun nb => nb.2.inst.id)
  let heap2 := heap.filter (fun x => decide (x.id ∈ roots))
  (heap2, heap.length - heap2.length)

/-- Mirrors Interpreter._exec_is: a total function on the environment and
class table; unknown names report the negative line. The result string of
the negative branch is written with an escaped apostrophe. -/
def execIs (classes : List (String × Ty)) (env : List (String × VarBinding))
    (varName typeName : String) : String :=
  match alookup env varName, alookup classes typeName with
  | some b, some t =>
      if t.isInterface then
        if b.inst.cls.implementsInterface t then "IS" else "ISN\x27T"
      else
        if b.inst.cls.isSubclassOf t then "IS" else "ISN\x27T"
  | _, _ => "ISN\x27T"

/-- The metrics counters (interpreter.Metrics.__init__). -/
structure Metrics where
  resolveCalls : Nat
  resolveTimeNs : Nat
  resolveSteps : Nat
  cacheHits : Nat
  cacheMisses : Nat
  vtableUses : Nat
  itableUses : Nat
  classJumps : Nat
  classProbes : Nat
  resolveFails : Nat
  gcRuns : Nat
  gcCollected : Nat
deriving DecidableEq, Repr

/-- The end-of-run metrics report (interpreter.Metrics.print) as labelled
quantities, one entry per counter line the method prints; the avg figure
is derived from resolve_time_ns and resolve_calls, not a counter of its
own. -/
def Metrics.report (m : Metrics) : List (String × Nat) :=
  [("resolve_calls", m.resolveCalls),
   ("cache_hits", m.cacheHits),
   ("cache_misses", m.cacheMisses),
   ("vtable_uses", m.vtableUses),
   ("itable_uses", m.itableUses),
   ("resolve_steps", m.resolveSteps),
   ("resolve_time_ns", m.resolveTimeNs),
   ("gc_runs", m.gcRuns),
   ("gc_collected", m.gcCollected)]

/-! ## A small concrete hierarchy used by the witnesses -/

/-- CLASS A with field a and methods m -> [a, 1], n -> [5]. -/
def tA : Ty := .root "A" [] ["a"] [("m", ["a", "1"]), ("n", ["5"])]

/-- INTERFACE I declaring p -> [] (required) and q -> [7] (default body). -/
def iI : IfaceData := ⟨"I", [("p", []), ("q", ["7"])]⟩

/-- CLASS B base A with field b, overriding m -> [b, 2]. -/
def tB : Ty := .derived "B" tA [] ["b"] [("m", ["b", "2"])]

/-- CLASS C base B implementing I, with field c and method p -> [3]. -/
def tC : Ty := .derived "C" tB [iI] ["c"] [("p", ["3"])]

/-! ## Proof-side notions about the vtable construction -/

/-- The invariant tying a slot map and a vtable array to a lookup
function: every slot holds the token sequence the lookup function yields
for its method name, and distinct names own distinct slots. The linker's
construction maintains this with the class's own lookup_method. -/
def SlotInv (look : String → Option (List String)) (ms : List (String × Nat))
    (vt : List (List String)) : Prop :=
  (∀ m s, alookup ms m = some s → ∃ ts, vt.get? s = some ts ∧ look m = some ts) ∧
  (∀ m1 m2 s, alookup ms m1 = some s → alookup ms m2 = some s → m1 = m2)

/-- The lookup function obtained after folding a method list over a
supplied fallback lookup: names declared in the list take precedence. -/
def lookOverride (L : List (String × List String))
    (look : String → Option (List String)) (x : String) : Option (List String) :=
  match alookup L x with
  | some ts => some ts
  | none => look x

/-! ## Basic association-list lemmas -/

theorem alookup_append_some {κ α : Type} [DecidableEq κ] {l1 l2 : List (κ × α)} {m : κ}
    {v : α} (h : alookup l1 m = some v) : alookup (l1 ++ l2) m = some v := by
  induction l1 with
  | nil => simp [alookup] at h
  | cons hd tl ih =>
      obtain ⟨k, w⟩ := hd
      by_cases hk : k = m
      · simpa [alookup, hk] using h
      · simp only [alookup, hk, if_false, List.cons_append] at h ⊢
        exact ih h

theorem alookup_append_none {κ α : Type} [DecidableEq κ] {l1 : List (κ × α)}
    (l2 : List (κ × α)) {m : κ} (h : alookup l1 m = none) :
    alookup (l1 ++ l2) m = alookup l2 m := by
  induction l1 with
  | nil => simp
  | cons hd tl ih =>
      obtain ⟨k, w⟩ := hd
      by_cases hk : k = m
      · simp [alookup, hk] at h
      · simp only [alookup, hk, if_false, List.cons_append] at h ⊢
        exact ih h

theorem alistUpsert_self {κ α : Type} [DecidableEq κ] (l : List (κ × α)) (k : κ) (v : α) :
    alookup (alistUpsert l k v) k = some v := by
  induction l with
  | nil => simp [alistUpsert, alookup]
  | cons hd tl ih =>
      obtain ⟨k0, v0⟩ := hd
      by_cases hk : k0 = k
      · simp [alistUpsert, alookup, hk]
      · simp only [alistUpsert, hk, if_false]
        simp only [alookup, hk, if_false]
        exact ih

/-! ## C7: the metrics report -/

/-- C7 counterexample: the end-of-run metrics report does NOT expose the
class-hop (class_jumps), per-class method-probe (class_probes) or
failed-probe (resolve_fails) counters: two metrics states that differ in
exactly those three counters produce the identical report, so the printed
report cannot expose any of them. -/
theorem metrics_report_omits_probe_counters :
    Metrics.report ⟨1, 2, 3, 4, 5, 6, 7, 8, 9, 10, 11, 12⟩ =
      Metrics.report ⟨1, 2, 3, 4, 5, 6, 7, 0, 0, 0, 11, 12⟩ ∧
    (8, 9, 10) ≠ ((0 : Nat), (0 : Nat), (0 : Nat)) := by
  constructor
  · rfl
  · decide

/-- C7 (amended): when metrics are enabled, the end-of-run report exposes
total resolutions, total resolution time, total base-chain steps, cache
hit and miss counts, vtable and itable use counts, collection run count
and total objects collected; the class-hop, method-probe and failed-probe
counters are accumulated but not part of the printed report. -/
theorem metrics_report_exposes_counters (m : Metrics) :
    ("resolve_calls", m.resolveCalls) ∈ m.report ∧
    ("resolve_time_ns", m.resolveTimeNs) ∈ m.report ∧
    ("resolve_steps", m.resolveSteps) ∈ m.report ∧
    ("cache_hits", m.cacheHits) ∈ m.report ∧
    ("cache_misses", m.cacheMisses) ∈ m.report ∧
    ("vtable_uses", m.vtableUses) ∈ m.report ∧
    ("itable_uses", m.itableUses) ∈ m.report ∧
    ("gc_runs", m.gcRuns) ∈ m.report ∧
    ("gc_collected", m.gcCollected) ∈ m.report ∧
    (∀ cj cp rf : Nat,
      Metrics.report { m with classJumps := cj, classProbes := cp, resolveFails := rf } =
        m.report) := by
  refine ⟨?_, ?_, ?_, ?_, ?_, ?_, ?_, ?_, ?_, ?_⟩ <;>
    simp [Metrics.report]

/-! ## C8: constructor arity -/

/-- C8: a new statement whose argument count differs from the class's
all_fields length fails with the arity error and leaves the heap
unchanged (the object is appended only after the length check passes). -/
theorem arity_error_before_heap_append (classes : List (String × Ty)) (clsName : String)
    (args : List Int) (heap : List Instance) (objId : Nat) (cls : Ty)
    (hc : alookup classes clsName = some cls) (hni : cls.isInterface = false)
    (hlen : cls.allFields.length ≠ args.length) :
    (instantiate classes clsName args heap objId).1 = Except.error "Constructor arity mismatch" ∧
    (instantiate classes clsName args heap objId).2 = heap := by
  simp [instantiate, hc, hni, hlen]

theorem arity_error_before_heap_append_witness :
    (instantiate [("B", tB)] "B" [1] [] 0).1 = Except.error "Constructor arity mismatch" ∧
    (instantiate [("B", tB)] "B" [1] [] 0).2 = [] :=
  arity_error_before_heap_append [("B", tB)] "B" [1] [] 0 tB (by decide) (by decide) (by decide)

/-! ## C9: the is statement -/

/-- C9: the is statement never fails: it is a total function into the two
report strings; an unknown variable or type name reports the negative
line, and otherwise the positive line is reported exactly when the bound
object's runtime type is/derives the named class or implements the named
interface. -/
theorem is_statement_total (classes : List (String × Ty))
    (env : List (String × VarBinding)) (varName typeName : String) :
    ((alookup env varName = none ∨ alookup classes typeName = none) →
      execIs classes env varName typeName = "ISN\x27T") ∧
    (∀ b t, alookup env varName = some b → alookup classes typeName = some t →
      (execIs classes env varName typeName = "IS" ↔
        (if t.isInterface then b.inst.cls.implementsInterface t
         else b.inst.cls.isSubclassOf t) = true)) ∧
    (execIs classes env varName typeName = "IS" ∨
      execIs classes env varName typeName = "ISN\x27T") := by
  refine ⟨?_, ?_, ?_⟩
  · intro h
    rcases h with h | h
    · simp [execIs, h]
    · simp only [execIs, h]
      cases alookup env varName <;> simp
  · intro b t hb ht
    simp only [execIs, hb, ht]
    split
    · split <;> simp_all
    · split <;> simp_all
  · simp only [execIs]
    rcases hv : alookup env varName with _ | b <;>
      rcases ht : alookup classes typeName with _ | t
    · simp
    · simp
    · simp
    · split
      · split <;> simp
      · split <;> simp

theorem is_statement_total_witness :
    execIs [("A", tA)] [] "x" "A" = "ISN\x27T" ∧
    execIs [("A", tA)] [("x", ⟨⟨0, tB, [1, 2]⟩, tB⟩)] "x" "A" = "IS" := by
  refine ⟨(is_statement_total [("A", tA)] [] "x" "A").1 (Or.inl rfl), ?_⟩
  exact ((is_statement_total [("A", tA)] [("x", ⟨⟨0, tB, [1, 2]⟩, tB⟩)] "x" "A").2.1
    ⟨⟨0, tB, [1, 2]⟩, tB⟩ tA rfl rfl).mpr (by decide)

/-! ## C5: the collector -/

/-- Filtering a list in which exactly one element (present once, witnessed
by distinct ids) fails the predicate shortens it by exactly one. -/
theorem filter_length_one_fail {p : Instance → Bool} {heap : List Instance} {o : Instance}
    (hnodup : (heap.map Instance.id).Nodup) (ho : o ∈ heap) (hpo : p o = false)
    (hrest : ∀ x ∈ heap, x ≠ o → p x = true) :
    (heap.filter p).length + 1 = heap.length := by
  induction heap with
  | nil => exact absurd ho (List.not_mem_nil o)
  | cons x rest ih =>
      simp only [List.map_cons, List.nodup_cons] at hnodup
      by_cases hxo : x = o
      · subst hxo
        have hresteq : rest.filter p = rest := by
          apply List.filter_eq_self.mpr
          intro y hy
          apply hrest y (List.mem_cons_of_mem _ hy)
          intro hyx
          exact hnodup.1 (hyx ▸ List.mem_map_of_mem Instance.id hy)
        simp [List.filter_cons, hpo, hresteq]
      · have hpx : p x = true := hrest x (List.mem_cons_self x rest) hxo
        have homem : o ∈ rest := by
          rcases List.mem_cons.mp ho with h | h
          · exact absurd h.symm hxo
          · exact h
        have := ih hnodup.2 homem (fun y hy hne => hrest y (List.mem_cons_of_mem _ hy) hne)
        simp only [List.filter_cons, hpx, if_true, List.length_cons]
        omega

/-- C5: with collection enabled, a gc statement filters the heap down to
exactly the objects referenced by some current environment binding; in
particular, after free removes the only name bound to an object, the next
gc removes that object and (when every other heap object still has an
alias) the collected count is exactly 1, while every object with a
surviving binding is retained. -/
theorem gc_exact_root_filter (env0 env1 : List (String × VarBinding))
    (heap : List Instance) (name : String) (o : Instance) (b0 : VarBinding)
    (hnodup : (heap.map Instance.id).Nodup)
    (hfree : execFree env0 name = Except.ok env1)
    (hbound : alookup env0 name = some b0) (hbid : b0.inst.id = o.id)
    (honly : ∀ n2 b, (n2, b) ∈ env0 → b.inst.id = o.id → n2 = name)
    (ho : o ∈ heap)
    (hothers : ∀ x ∈ heap, x ≠ o → ∃ n2 b, (n2, b) ∈ env1 ∧ b.inst.id = x.id) :
    (∀ x, x ∈ (gcCollect env1 heap).1 ↔
        x ∈ heap ∧ ∃ n2 b, (n2, b) ∈ env1 ∧ b.inst.id = x.id) ∧
    o ∉ (gcCollect env1 heap).1 ∧
    (gcCollect env1 heap).2 = 1 := by
  have henv1 : env1 = env0.filter (fun q => q.1 ≠ name) := by
    simp only [execFree, hbound, Option.isSome_some, if_true, Except.ok.injEq] at hfree
    exact hfree.symm
  have hno1 : ∀ n2 b, (n2, b) ∈ env1 → b.inst.id ≠ o.id := by
    intro n2 b hmem hid
    rw [henv1] at hmem
    have hmf := List.mem_filter.mp hmem
    have hneq : n2 ≠ name := by simpa using hmf.2
    exact hneq (honly n2 b hmf.1 hid)
  have hmemchar : ∀ x, x ∈ (gcCollect env1 heap).1 ↔
      x ∈ heap ∧ ∃ n2 b, (n2, b) ∈ env1 ∧ b.inst.id = x.id := by
    intro x
    simp only [gcCollect, List.mem_filter, decide_eq_true_eq, List.mem_map]
    constructor
    · rintro ⟨hx, ⟨⟨n2, b⟩, hb, hbid2⟩⟩
      exact ⟨hx, n2, b, hb, hbid2⟩
    · rintro ⟨hx, n2, b, hb, hbid2⟩
      exact ⟨hx, ⟨(n2, b), hb, hbid2⟩⟩
  have hpo : (fun x => decide (x.id ∈ env1.map (fun nb => nb.2.inst.id))) o = false := by
    simp only [decide_eq_false_iff_not, List.mem_map, not_exists]
    rintro ⟨n2, b⟩ ⟨hb, hbid2⟩
    exact hno1 n2 b hb hbid2
  have hpx : ∀ x ∈ heap, x ≠ o →
      (fun x => decide (x.id ∈ env1.map (fun nb => nb.2.inst.id))) x = true := by
    intro x hx hne
    obtain ⟨n2, b, hb, hbid2⟩ := hothers x hx hne
    simp only [decide_eq_true_eq, List.mem_map]
    exact ⟨(n2, b), hb, hbid2⟩
  refine ⟨hmemchar, ?_, ?_⟩
  · intro hmem
    have := ((hmemchar o).mp hmem).2
    obtain ⟨n2, b, hb, hbid2⟩ := this
    exact hno1 n2 b hb hbid2
  · have := filter_length_one_fail hnodup ho hpo hpx
    simp only [gcCollect]
    omega

theorem gc_exact_root_filter_witness :
    ⟨0, tA, [3]⟩ ∉ (RAFOOpp.gcCollect [("y", ⟨⟨1, tA, [4]⟩, tA⟩)]
        [⟨0, tA, [3]⟩, ⟨1, tA, [4]⟩]).1 ∧
    (RAFOOpp.gcCollect [("y", ⟨⟨1, tA, [4]⟩, tA⟩)] [⟨0, tA, [3]⟩, ⟨1, tA, [4]⟩]).2 = 1 := by
  have h := gc_exact_root_filter
    [("x", ⟨⟨0, tA, [3]⟩, tA⟩), ("y", ⟨⟨1, tA, [4]⟩, tA⟩)]
    [("y", ⟨⟨1, tA, [4]⟩, tA⟩)]
    [⟨0, tA, [3]⟩, ⟨1, tA, [4]⟩] "x" ⟨0, tA, [3]⟩ ⟨⟨0, tA, [3]⟩, tA⟩
    (by decide) rfl (by decide) rfl
    (by intro n2 b hmem hid
        fin_cases hmem
        · rfl
        · exact absurd hid (by decide))
    (by decide)
    (by intro x hx hne
        fin_cases hx
        · exact absurd rfl hne
        · exact ⟨"y", ⟨⟨1, tA, [4]⟩, tA⟩, by decide, rfl⟩)
  exact ⟨h.2.1, h.2.2⟩

/-! ## C4: global plan-cache idempotence -/

/-- C4: with the global plan cache enabled, resolving the same
(call kind, view, runtime, method) key a second time on the non-vtable
path returns exactly the plan the first resolution stored, leaves the
cache unchanged, and contributes 0 to the resolve_steps metric (no
hierarchy walk happens on the second resolution). -/
theorem plan_cache_idempotent (cfg : RCfg) (cache : PlanCache) (view runtime : Ty)
    (m : String) (dynamic : Bool) (p : MethodPlan) (cache1 : PlanCache) (s1 : Nat)
    (hc : cfg.enableCache = true)
    (hnv : dynamic = false ∨ cfg.enableVtable = false)
    (h1 : resolveCallPlan cfg cache view runtime m dynamic = Except.ok (p, cache1, s1)) :
    resolveCallPlan cfg cache1 view runtime m dynamic = Except.ok (p, cache1, 0) := by
  have hdv : (dynamic && cfg.enableVtable) = false := by
    rcases hnv with h | h <;> simp [h]
  by_cases hlm : view.lookupMethod m = none
  · simp [resolveCallPlan, hlm] at h1
  · simp only [resolveCallPlan, hlm, if_false, hdv, Bool.false_eq_true, hc, if_true] at h1 ⊢
    rcases halk : alookup cache ((if dynamic then "dyn" else "static"),
        view.name, runtime.name, m) with _ | q
    all_goals rw [halk] at h1
    · rcases hres : fallbackTokens view runtime m dynamic with e | r
      all_goals rw [hres] at h1
      · exact absurd h1 (by simp)
      · obtain ⟨tks, steps⟩ := r
        rcases tks with _ | toks
        · exact absurd h1 (by simp)
        · simp only at h1
          rcases hcp : compilePlan runtime toks with e | plan
          all_goals rw [hcp] at h1
          · exact absurd h1 (by simp)
          · simp only [Except.ok.injEq, Prod.mk.injEq] at h1
            obtain ⟨hp, hcc, _⟩ := h1
            subst hp
            have hfound : alookup cache1 ((if dynamic then "dyn" else "static"),
                view.name, runtime.name, m) = some plan := by
              rw [← hcc]
              exact alistUpsert_self cache _ plan
            rw [hfound]
    · simp only [Except.ok.injEq, Prod.mk.injEq] at h1
      obtain ⟨hp, hcc, _⟩ := h1
      subst hp
      rw [← hcc]
      rw [halk]

theorem plan_cache_idempotent_witness :
    resolveCallPlan ⟨false, true⟩ [(("static", "A", "B", "n"), [(false, 5)])] tA tB "n" false =
      Except.ok ([(false, 5)], [(("static", "A", "B", "n"), [(false, 5)])], 0) :=
  plan_cache_idempotent ⟨false, true⟩ [] tA tB "n" false [(false, 5)]
    [(("static", "A", "B", "n"), [(false, 5)])] 0 rfl (Or.inl rfl) rfl

/-! ## Association-list and fold lemmas for the vtable construction -/

theorem alookup_isSome_iff_mem_keys {α : Type} (l : List (String × α)) (m : String) :
    (alookup l m).isSome ↔ m ∈ l.map Prod.fst := by
  induction l with
  | nil => simp [alookup]
  | cons hd tl ih =>
      obtain ⟨k, v⟩ := hd
      by_cases hk : k = m
      · simp [alookup, hk]
      · simp [alookup, hk, ih, Ne.symm hk]

theorem alookup_some_of_mem_keys {α : Type} {l : List (String × α)} {m : String}
    (h : m ∈ l.map Prod.fst) : ∃ v, alookup l m = some v := by
  have := (alookup_isSome_iff_mem_keys l m).mpr h
  exact Option.isSome_iff_exists.mp this

/-- Preservation: folding more methods never changes the slot of a name
that already has one. -/
theorem vtFold_pres (L : List (String × List String)) (ms : List (String × Nat))
    (vt : List (List String)) {m : String} {s : Nat} (h : alookup ms m = some s) :
    alookup (L.foldl vtStep (ms, vt)).1 m = some s := by
  induction L generalizing ms vt with
  | nil => exact h
  | cons e rest ih =>
      obtain ⟨k, ts⟩ := e
      simp only [List.foldl_cons]
      rcases hk : alookup ms k with _ | slot
      · rw [show vtStep (ms, vt) (k, ts) = (ms ++ [(k, vt.length)], vt ++ [ts]) from by
          simp [vtStep, hk]]
        exact ih _ _ (alookup_append_some h)
      · rw [show vtStep (ms, vt) (k, ts) = (ms, vt.set slot ts) from by simp [vtStep, hk]]
        exact ih _ _ h

/-- The vtable array never shrinks while folding methods. -/
theorem vtFold_len (L : List (String × List String)) (ms : List (String × Nat))
    (vt : List (List String)) :
    vt.length ≤ (L.foldl vtStep (ms, vt)).2.length := by
  induction L generalizing ms vt with
  | nil => exact le_refl _
  | cons e rest ih =>
      obtain ⟨k, ts⟩ := e
      simp only [List.foldl_cons]
      rcases hk : alookup ms k with _ | slot
      · rw [show vtStep (ms, vt) (k, ts) = (ms ++ [(k, vt.length)], vt ++ [ts]) from by
          simp [vtStep, hk]]
        have := ih (ms ++ [(k, vt.length)]) (vt ++ [ts])
        simp only [List.length_append, List.length_cons, List.length_nil] at this
        omega
      · rw [show vtStep (ms, vt) (k, ts) = (ms, vt.set slot ts) from by simp [vtStep, hk]]
        have := ih ms (vt.set slot ts)
        simpa using this

/-- Domain: after the fold, a name has a slot exactly when it already had
one or is declared in the folded list. -/
theorem vtFold_dom (L : List (String × List String)) (ms : List (String × Nat))
    (vt : List (List String)) (m : String) :
    (alookup (L.foldl vtStep (ms, vt)).1 m).isSome ↔
      (alookup ms m).isSome ∨ m ∈ L.map Prod.fst := by
  induction L generalizing ms vt with
  | nil => simp
  | cons e rest ih =>
      obtain ⟨k, ts⟩ := e
      simp only [List.foldl_cons, List.map_cons, List.mem_cons]
      rcases hk : alookup ms k with _ | slot
      · rw [show vtStep (ms, vt) (k, ts) = (ms ++ [(k, vt.length)], vt ++ [ts]) from by
          simp [vtStep, hk]]
        rw [ih]
        constructor
        · rintro (hs | hm)
          · rcases hms : alookup ms m with _ | v
            · rw [alookup_append_none _ hms] at hs
              by_cases hkm : k = m
              · exact Or.inr (Or.inl hkm.symm)
              · simp [alookup, hkm] at hs
            · exact Or.inl (by simp [hms])
          · exact Or.inr (Or.inr hm)
        · rintro (hs | hm | hm)
          · obtain ⟨v, hv⟩ := Option.isSome_iff_exists.mp hs
            exact Or.inl (by simp [alookup_append_some hv])
          · subst hm
            rcases hms : alookup ms m with _ | v
            · rw [alookup_append_none _ hms]
              simp [alookup]
            · exact Or.inl (by simp [alookup_append_some hms])
          · exact Or.inr hm
      · rw [show vtStep (ms, vt) (k, ts) = (ms, vt.set slot ts) from by simp [vtStep, hk]]
        rw [ih]
        constructor
        · rintro (hs | hm)
          · exact Or.inl hs
          · exact Or.inr (Or.inr hm)
        · rintro (hs | hm | hm)
          · exact Or.inl hs
          · subst hm
            exact Or.inl (by simp [hk])
          · exact Or.inr hm

/-- A name without a slot that is declared in the folded list is appended
at a slot no smaller than the initial vtable length (a fresh slot). -/
theorem vtFold_fresh (L : List (String × List String)) (ms : List (String × Nat))
    (vt : List (List String)) (m : String) (hnone : alookup ms m = none)
    (hmem : m ∈ L.map Prod.fst) :
    ∃ s, alookup (L.foldl vtStep (ms, vt)).1 m = some s ∧ vt.length ≤ s := by
  induction L generalizing ms vt with
  | nil => simp at hmem
  | cons e rest ih =>
      obtain ⟨k, ts⟩ := e
      simp only [List.foldl_cons]
      by_cases hkm : k = m
      · subst hkm
        rw [show vtStep (ms, vt) (k, ts) = (ms ++ [(k, vt.length)], vt ++ [ts]) from by
          simp [vtStep, hnone]]
        have hfound : alookup (ms ++ [(k, vt.length)]) k = some vt.length := by
          rw [alookup_append_none _ hnone]
          simp [alookup]
        exact ⟨vt.length, vtFold_pres rest _ _ hfound, le_refl _⟩
      · have hmem2 : m ∈ rest.map Prod.fst := by
          simp only [List.map_cons, List.mem_cons] at hmem
          rcases hmem with h | h
          · exact absurd h.symm hkm
          · exact h
        rcases hk : alookup ms k with _ | slot
        · rw [show vtStep (ms, vt) (k, ts) = (ms ++ [(k, vt.length)], vt ++ [ts]) from by
            simp [vtStep, hk]]
          have hnone2 : alookup (ms ++ [(k, vt.length)]) m = none := by
            rw [alookup_append_none _ hnone]
            simp [alookup, hkm]
          obtain ⟨s, hs, hls⟩ := ih _ _ hnone2 hmem2
          exact ⟨s, hs, le_trans (by simp) hls⟩
        · rw [show vtStep (ms, vt) (k, ts) = (ms, vt.set slot ts) from by simp [vtStep, hk]]
          obtain ⟨s, hs, hls⟩ := ih _ _ hnone hmem2
          exact ⟨s, hs, le_trans (by simp) hls⟩

theorem SlotInv_congr {f g : String → Option (List String)} {ms : List (String × Nat)}
    {vt : List (List String)} (h : ∀ x, f x = g x) (hs : SlotInv f ms vt) :
    SlotInv g ms vt := by
  obtain ⟨h1, h2⟩ := hs
  refine ⟨?_, h2⟩
  intro m s hms
  obtain ⟨ts, hget, hlook⟩ := h1 m s hms
  exact ⟨ts, hget, (h m) ▸ hlook⟩

/-- The single vtable-construction step preserves the invariant, updating
the lookup function at the processed method name. -/
theorem SlotInv_step {look : String → Option (List String)} {ms : List (String × Nat)}
    {vt : List (List String)} (h : SlotInv look ms vt) (k : String) (ts : List String) :
    SlotInv (fun x => if x = k then some ts else look x)
      (vtStep (ms, vt) (k, ts)).1 (vtStep (ms, vt) (k, ts)).2 := by
  obtain ⟨h1, h2⟩ := h
  rcases hk : alookup ms k with _ | slot
  · -- the method is new: appended at a fresh slot
    rw [show vtStep (ms, vt) (k, ts) = (ms ++ [(k, vt.length)], vt ++ [ts]) from by
      simp [vtStep, hk]]
    have hlt : ∀ m s, alookup ms m = some s → s < vt.length := by
      intro m s hms
      obtain ⟨ts0, hget, _⟩ := h1 m s hms
      exact (List.get?_eq_some.mp hget).1
    have hlookA : ∀ m, alookup ms m = none →
        alookup (ms ++ [(k, vt.length)]) m = (if k = m then some vt.length else none) := by
      intro m hms
      rw [alookup_append_none _ hms]
      simp [alookup]
    have hlookB : ∀ m v, alookup ms m = some v →
        alookup (ms ++ [(k, vt.length)]) m = some v := by
      intro m v hms
      exact alookup_append_some hms
    constructor
    · intro m s hms
      rcases hms2 : alookup ms m with _ | v
      · rw [hlookA m hms2] at hms
        by_cases hkm : k = m
        · rw [if_pos hkm] at hms
          have hls : vt.length = s := by simpa using hms
          subst hkm
          refine ⟨ts, ?_, by simp⟩
          rw [← hls]
          exact List.get?_concat_length vt ts
        · rw [if_neg hkm] at hms
          exact absurd hms (by simp)
      · rw [hlookB m v hms2] at hms
        have hvs : v = s := by simpa using hms
        obtain ⟨ts0, hget, hlook⟩ := h1 m v hms2
        have hmk : ¬(m = k) := by
          intro hkm
          rw [hkm, hk] at hms2
          cases hms2
        refine ⟨ts0, ?_, by simp [hmk, hlook]⟩
        rw [← hvs]
        rw [List.get?_append (hlt m v hms2)]
        exact hget
    · intro m1 m2 s hm1 hm2
      rcases hs1 : alookup ms m1 with _ | v1 <;> rcases hs2 : alookup ms m2 with _ | v2
      · rw [hlookA m1 hs1] at hm1
        rw [hlookA m2 hs2] at hm2
        by_cases hk1 : k = m1
        · by_cases hk2 : k = m2
          · rw [← hk1, ← hk2]
          · rw [if_neg hk2] at hm2
            exact absurd hm2 (by simp)
        · rw [if_neg hk1] at hm1
          exact absurd hm1 (by simp)
      · rw [hlookA m1 hs1] at hm1
        rw [hlookB m2 v2 hs2] at hm2
        by_cases hk1 : k = m1
        · rw [if_pos hk1] at hm1
          have e1 : vt.length = s := by simpa using hm1
          have e2 : v2 = s := by simpa using hm2
          have := hlt m2 v2 hs2
          omega
        · rw [if_neg hk1] at hm1
          exact absurd hm1 (by simp)
      · rw [hlookB m1 v1 hs1] at hm1
        rw [hlookA m2 hs2] at hm2
        by_cases hk2 : k = m2
        · rw [if_pos hk2] at hm2
          have e1 : v1 = s := by simpa using hm1
          have e2 : vt.length = s := by simpa using hm2
          have := hlt m1 v1 hs1
          omega
        · rw [if_neg hk2] at hm2
          exact absurd hm2 (by simp)
      · rw [hlookB m1 v1 hs1] at hm1
        rw [hlookB m2 v2 hs2] at hm2
        have e1 : v1 = s := by simpa using hm1
        have e2 : v2 = s := by simpa using hm2
        exact h2 m1 m2 s (e1 ▸ hs1) (e2 ▸ hs2)
  · -- override: the token sequence is replaced in place at the old slot
    rw [show vtStep (ms, vt) (k, ts) = (ms, vt.set slot ts) from by simp [vtStep, hk]]
    have hslotlt : slot < vt.length := by
      obtain ⟨ts0, hget, _⟩ := h1 k slot hk
      exact (List.get?_eq_some.mp hget).1
    constructor
    · intro m s hms
      by_cases hmk : m = k
      · subst hmk
        have hss : s = slot := by
          rw [hms] at hk
          simpa using hk
        refine ⟨ts, ?_, by simp⟩
        rw [hss]
        exact List.get?_set_eq_of_lt ts hslotlt
      · have hsne : s ≠ slot := by
          intro hss
          exact hmk (h2 m k slot (hss ▸ hms) hk)
        obtain ⟨ts0, hget, hlook⟩ := h1 m s hms
        refine ⟨ts0, ?_, by simp [hmk, hlook]⟩
        rw [List.get?_set_ne ts vt (Ne.symm hsne)]
        exact hget
    · exact h2

/-- Folding a method list with distinct names over an invariant-satisfying
state yields the invariant for the override lookup. -/
theorem SlotInv_fold {look : String → Option (List String)} {ms : List (String × Nat)}
    {vt : List (List String)} (L : List (String × List String))
    (hL : distinctKeys L = true) (h : SlotInv look ms vt) :
    SlotInv (lookOverride L look) (L.foldl vtStep (ms, vt)).1 (L.foldl vtStep (ms, vt)).2 := by
  induction L generalizing look ms vt with
  | nil =>
      exact SlotInv_congr (fun x => by simp [lookOverride, alookup]) h
  | cons e rest ih =>
      obtain ⟨k, ts⟩ := e
      simp only [distinctKeys, Bool.and_eq_true, Bool.not_eq_true] at hL
      obtain ⟨hknotin, hrest⟩ := hL
      have hstep := SlotInv_step h k ts
      simp only [List.foldl_cons]
      have hfold := ih hrest hstep
      apply SlotInv_congr _ hfold
      intro x
      simp only [lookOverride, alookup]
      rcases hrx : alookup rest x with _ | ts2
      · by_cases hkx : k = x
        · simp [hkx]
        · simp [hkx, Ne.symm hkx]
      · have hxrest : x ∈ rest.map Prod.fst :=
          (alookup_isSome_iff_mem_keys rest x).mp (by simp [hrx])
        have hkx : ¬(k = x) := by
          intro hkx
          subst hkx
          have hany : rest.any (fun p => p.1 == k) = true := by
            rcases List.mem_map.mp hxrest with ⟨p, hp, hp1⟩
            exact List.any_eq_true.mpr ⟨p, hp, by simp [hp1]⟩
          rw [hany] at hknotin
          cases hknotin
        simp [hkx]

/-! ## Per-type lemmas about the linked tables -/

/-- The token component of _lookup_with_steps agrees with lookup_method
(for interfaces both consult only the declared map; for classes both walk
the chain). -/
theorem lookupWithSteps_fst : ∀ (c : Ty) (m : String),
    (c.lookupWithSteps m).1 = c.lookupMethod m := by
  intro c
  induction c with
  | iface d =>
      intro m
      simp only [Ty.lookupWithSteps, Ty.lookupMethod]
      rcases alookup d.imethods m with _ | ts <;> rfl
  | root n l fs ms =>
      intro m
      simp only [Ty.lookupWithSteps, Ty.lookupMethod]
      rcases alookup ms m with _ | ts <;> rfl
  | derived n b l fs ms ih =>
      intro m
      simp only [Ty.lookupWithSteps, Ty.lookupMethod]
      rcases alookup ms m with _ | ts
      · simpa using ih m
      · rfl

theorem chain_self (c : Ty) : c ∈ c.chain := by
  cases c <;> simp [Ty.chain]

/-- Everything on the chain of a well-formed class is a well-formed class. -/
theorem chain_props : ∀ (c p : Ty), c.wfChain = true → c.isInterface = false →
    p ∈ c.chain → p.wfChain = true ∧ p.isInterface = false := by
  intro c
  induction c with
  | iface d =>
      intro p _ hif _
      simp [Ty.isInterface] at hif
  | root n l fs ms =>
      intro p hwf hif hp
      simp only [Ty.chain, List.mem_singleton] at hp
      subst hp
      exact ⟨hwf, hif⟩
  | derived n b l fs ms ih =>
      intro p hwf _ hp
      have hwf2 := hwf
      simp only [Ty.wfChain, Bool.and_eq_true] at hwf2
      obtain ⟨⟨hdk, hbni⟩, hbwf⟩ := hwf2
      simp only [Ty.chain, List.mem_cons] at hp
      rcases hp with hp | hp
      · subst hp
        exact ⟨hwf, rfl⟩
      · exact ih p hbwf (by simpa using hbni) hp

/-- The noRedecl property is inherited along the base chain. -/
theorem noRedecl_of_mem_chain : ∀ (c p : Ty), c.noRedecl = true → p ∈ c.chain →
    p.noRedecl = true := by
  intro c
  induction c with
  | iface d =>
      intro p hnr hp
      simp only [Ty.chain, List.mem_singleton] at hp
      subst hp
      exact hnr
  | root n l fs ms =>
      intro p hnr hp
      simp only [Ty.chain, List.mem_singleton] at hp
      subst hp
      exact hnr
  | derived n b l fs ms ih =>
      intro p hnr hp
      have hnr2 := hnr
      simp only [Ty.noRedecl, Bool.and_eq_true] at hnr2
      simp only [Ty.chain, List.mem_cons] at hp
      rcases hp with hp | hp
      · subst hp
        exact hnr
      · exact ih p hnr2.2 hp

/-- An ancestor's field layout is a prefix of the descendant's layout. -/
theorem allFields_of_mem_chain : ∀ (c p : Ty), p ∈ c.chain →
    ∃ rest, c.allFields = p.allFields ++ rest := by
  intro c
  induction c with
  | iface d =>
      intro p hp
      simp only [Ty.chain, List.mem_singleton] at hp
      subst hp
      exact ⟨[], by simp⟩
  | root n l fs ms =>
      intro p hp
      simp only [Ty.chain, List.mem_singleton] at hp
      subst hp
      exact ⟨[], by simp⟩
  | derived n b l fs ms ih =>
      intro p hp
      simp only [Ty.chain, List.mem_cons] at hp
      rcases hp with hp | hp
      · subst hp
        exact ⟨[], by simp⟩
      · obtain ⟨r, hr⟩ := ih p hp
        exact ⟨r ++ fs, by simp [Ty.allFields, hr]⟩

/-- After linking, a class's slot map and vtable satisfy the invariant
with respect to its own lookup_method. -/
theorem vt_slotInv : ∀ (c : Ty), c.wfChain = true → c.isInterface = false →
    SlotInv c.lookupMethod c.methodSlot c.vtableTokens := by
  intro c
  induction c with
  | iface d =>
      intro _ hif
      simp [Ty.isInterface] at hif
  | root n l fs ms =>
      intro hwf _
      have h0 : SlotInv (fun _ => none) [] [] := by
        constructor
        · intro m s hms
          simp [alookup] at hms
        · intro m1 m2 s hm1
          simp [alookup] at hm1
      have hfold := SlotInv_fold ms hwf h0
      apply SlotInv_congr _ hfold
      intro x
      simp only [lookOverride, Ty.lookupMethod]
      rcases alookup ms x with _ | ts <;> rfl
  | derived n b l fs ms ih =>
      intro hwf _
      simp only [Ty.wfChain, Bool.and_eq_true] at hwf
      obtain ⟨⟨hdk, hbni⟩, hbwf⟩ := hwf
      have hbinv := ih hbwf (by simpa using hbni)
      have hfold := SlotInv_fold ms hdk hbinv
      apply SlotInv_congr _ hfold
      intro x
      simp only [lookOverride, Ty.lookupMethod]

/-- Slot values of interface slot maps start at the enumeration base. -/
theorem enumSlotsFrom_ge : ∀ (L : List (String × List String)) (i : Nat) (m : String)
    (s : Nat), alookup (enumSlotsFrom i L) m = some s → i ≤ s := by
  intro L
  induction L with
  | nil =>
      intro i m s h
      simp [enumSlotsFrom, alookup] at h
  | cons e rest ih =>
      intro i m s h
      obtain ⟨k, ts⟩ := e
      simp only [enumSlotsFrom, alookup] at h
      by_cases hk : k = m
      · rw [if_pos hk] at h
        obtain rfl : i = s := by simpa using h
        exact le_refl _
      · rw [if_neg hk] at h
        exact le_trans (by omega) (ih (i + 1) m s h)

/-- The slot an interface assigns to a method is the method's position in
the declared list (first occurrence, matching dict key order). -/
theorem enumSlotsFrom_get : ∀ (L : List (String × List String)) (i : Nat) (m : String)
    (s : Nat), alookup (enumSlotsFrom i L) m = some s →
    (enumSlotsFrom i L).get? (s - i) = some (m, s) := by
  intro L
  induction L with
  | nil =>
      intro i m s h
      simp [enumSlotsFrom, alookup] at h
  | cons e rest ih =>
      intro i m s h
      obtain ⟨k, ts⟩ := e
      simp only [enumSlotsFrom, alookup] at h
      by_cases hk : k = m
      · rw [if_pos hk] at h
        obtain rfl : i = s := by simpa using h
        subst hk
        simp [enumSlotsFrom]
      · rw [if_neg hk] at h
        have hge := enumSlotsFrom_ge rest (i + 1) m s h
        have := ih (i + 1) m s h
        have hsi : s - i = (s - (i + 1)) + 1 := by omega
        rw [hsi]
        simpa [enumSlotsFrom] using this

/-- The slot-map domain of any linked type matches lookup_method
visibility: an interface exposes its declared methods, a class every
method declared along its chain. -/
theorem methodSlot_isSome : ∀ (c : Ty) (m : String),
    (alookup c.methodSlot m).isSome ↔ (c.lookupMethod m).isSome := by
  have henum : ∀ (L : List (String × List String)) (i : Nat) (m : String),
      (alookup (enumSlotsFrom i L) m).isSome ↔ (alookup L m).isSome := by
    intro L
    induction L with
    | nil => intro i m; exact Iff.rfl
    | cons e rest ih =>
        intro i m
        obtain ⟨k, ts⟩ := e
        by_cases hk : k = m
        · simp [enumSlotsFrom, alookup, hk]
        · simp only [enumSlotsFrom, alookup, hk, if_false]
          exact ih (i + 1) m
  intro c
  induction c with
  | iface d =>
      intro m
      simp only [Ty.methodSlot, Ty.vtData, Ty.lookupMethod]
      exact henum d.imethods 0 m
  | root n l fs ms =>
      intro m
      simp only [Ty.methodSlot, Ty.vtData, Ty.lookupMethod]
      rw [vtFold_dom]
      simp [alookup, alookup_isSome_iff_mem_keys]
  | derived n b l fs ms ih =>
      intro m
      simp only [Ty.methodSlot, Ty.vtData, Ty.lookupMethod]
      rw [vtFold_dom]
      rcases hms : alookup ms m with _ | ts
      · have : ¬(m ∈ ms.map Prod.fst) := by
          intro hmem
          have := (alookup_isSome_iff_mem_keys ms m).mpr hmem
          rw [hms] at this
          cases this
        simp only [this, or_false]
        exact ih m
      · have hmem : m ∈ ms.map Prod.fst :=
          (alookup_isSome_iff_mem_keys ms m).mp (by simp [hms])
        simp [hmem]

/-- A slot assigned anywhere along the chain is preserved verbatim in
every descendant (the override branch never reassigns slots, the append
branch only adds fresh names). -/
theorem methodSlot_chain_pres : ∀ (c p : Ty), p ∈ c.chain →
    ∀ m s, alookup p.methodSlot m = some s → alookup c.methodSlot m = some s := by
  intro c
  induction c with
  | iface d =>
      intro p hp m s h
      simp only [Ty.chain, List.mem_singleton] at hp
      subst hp
      exact h
  | root n l fs ms =>
      intro p hp m s h
      simp only [Ty.chain, List.mem_singleton] at hp
      subst hp
      exact h
  | derived n b l fs ms ih =>
      intro p hp m s h
      simp only [Ty.chain, List.mem_cons] at hp
      rcases hp with hp | hp
      · subst hp
        exact h
      · have hbase := ih p hp m s h
        simp only [Ty.methodSlot, Ty.vtData]
        exact vtFold_pres ms _ _ hbase

/-- Vtable length grows monotonically down the chain. -/
theorem vtable_len_chain_mono : ∀ (c p : Ty), p ∈ c.chain →
    p.vtableTokens.length ≤ c.vtableTokens.length := by
  intro c
  induction c with
  | iface d =>
      intro p hp
      simp only [Ty.chain, List.mem_singleton] at hp
      subst hp
      exact le_refl _
  | root n l fs ms =>
      intro p hp
      simp only [Ty.chain, List.mem_singleton] at hp
      subst hp
      exact le_refl _
  | derived n b l fs ms ih =>
      intro p hp
      simp only [Ty.chain, List.mem_cons] at hp
      rcases hp with hp | hp
      · subst hp
        exact le_refl _
      · have hbase := ih p hp
        simp only [Ty.vtableTokens, Ty.vtData]
        exact le_trans hbase (vtFold_len ms _ _)

/-! ## Field-index lemmas and C2 -/

theorem dictIdx_eq_none_iff (l : List String) (f : String) : dictIdx l f = none ↔ f ∉ l := by
  induction l with
  | nil => simp [dictIdx]
  | cons x xs ih =>
      simp only [dictIdx, List.mem_cons]
      rcases h : dictIdx xs f with _ | i
      · have hfxs : f ∉ xs := ih.mp h
        by_cases hx : x = f
        · simp [hx]
        · have hfx : ¬(f = x) := fun hc => hx hc.symm
          simp [hx, hfxs, hfx]
      · have hfxs : f ∈ xs := by
          by_contra hc
          rw [← ih, h] at hc
          exact Option.noConfusion hc
        simp [hfxs]

theorem dictIdx_append_not_mem (l1 l2 : List String) (f : String) (h : f ∉ l2) :
    dictIdx (l1 ++ l2) f = dictIdx l1 f := by
  induction l1 with
  | nil =>
      simp only [List.nil_append, dictIdx]
      exact (dictIdx_eq_none_iff l2 f).mpr h
  | cons x xs ih =>
      simp only [List.cons_append, dictIdx, List.append_eq]
      rw [ih]

/-- C2: after linking, a class's full field layout is its base's layout
followed by its own declared fields (empty base for a root class), and
(given link step 5 passed: no field redeclaration) the field index of any
field visible through an ancestor is identical in every subclass. -/
theorem field_layout_append_and_index_stable :
    (∀ c pb : Ty, c.isInterface = false → c.base = some pb →
        c.allFields = pb.allFields ++ c.fields) ∧
    (∀ d b : Ty, ∀ f : String, d.noRedecl = true → b ∈ d.chain → f ∈ b.allFields →
        d.fieldIdx f = b.fieldIdx f) := by
  constructor
  · intro c pb hif hb
    cases c with
    | iface d => simp [Ty.isInterface] at hif
    | root n l fs ms => simp [Ty.base] at hb
    | derived n b2 l fs ms =>
        simp only [Ty.base, Option.some.injEq] at hb
        subst hb
        rfl
  · intro d
    induction d with
    | iface dd =>
        intro b f hnr hb hf
        simp only [Ty.chain, List.mem_singleton] at hb
        subst hb
        rfl
    | root n l fs ms =>
        intro b f hnr hb hf
        simp only [Ty.chain, List.mem_singleton] at hb
        subst hb
        rfl
    | derived n bb l fs ms ih =>
        intro b f hnr hb hf
        simp only [Ty.chain, List.mem_cons] at hb
        rcases hb with hb | hb
        · subst hb
          rfl
        · have hnr2 := hnr
          simp only [Ty.noRedecl, Bool.and_eq_true] at hnr2
          obtain ⟨hdisj, hbnr⟩ := hnr2
          obtain ⟨r, hr⟩ := allFields_of_mem_chain bb b hb
          have hfbb : f ∈ bb.allFields := by
            rw [hr]
            exact List.mem_append_left _ hf
          have hffs : f ∉ fs := fun hmem =>
            (of_decide_eq_true (List.all_eq_true.mp hdisj f hmem)) hfbb
          have hstep : Ty.fieldIdx (.derived n bb l fs ms) f = Ty.fieldIdx bb f := by
            simp only [Ty.fieldIdx, Ty.allFields]
            exact dictIdx_append_not_mem _ _ _ hffs
          rw [hstep]
          exact ih b f hbnr hb hf

theorem field_layout_append_and_index_stable_witness :
    tB.allFields = tA.allFields ++ tB.fields ∧ tC.fieldIdx "a" = tA.fieldIdx "a" :=
  ⟨field_layout_append_and_index_stable.1 tB tA rfl rfl,
   field_layout_append_and_index_stable.2 tC tA "a" (by decide) (by decide) (by decide)⟩

/-! ## C3: slot stability across overrides -/

/-- C3: a method declared in an ancestor keeps the same slot in every
descendant (an override replaces the token sequence in place, never the
slot number), and a method absent from the base chain is appended at a
fresh slot (at or beyond the end of the inherited vtable). -/
theorem override_slot_stability (D B : Ty) (m : String) :
    (B ∈ D.chain → (alookup B.methods m).isSome →
      ∃ s, alookup B.methodSlot m = some s ∧ alookup D.methodSlot m = some s) ∧
    (∀ P, D.base = some P → alookup P.methodSlot m = none →
      m ∈ D.methods.map Prod.fst →
      ∃ s, alookup D.methodSlot m = some s ∧ P.vtableTokens.length ≤ s) := by
  constructor
  · intro hB hdecl
    have hlook : (B.lookupMethod m).isSome := by
      cases B with
      | iface d => simpa [Ty.lookupMethod, Ty.methods] using hdecl
      | root n l fs ms => simpa [Ty.lookupMethod, Ty.methods] using hdecl
      | derived n b l fs ms =>
          simp only [Ty.methods] at hdecl
          obtain ⟨v, hv⟩ := Option.isSome_iff_exists.mp hdecl
          simp [Ty.lookupMethod, hv]
    have hslotB := (methodSlot_isSome B m).mpr hlook
    obtain ⟨s, hs⟩ := Option.isSome_iff_exists.mp hslotB
    exact ⟨s, hs, methodSlot_chain_pres D B hB m s hs⟩
  · intro P hP hnone hmem
    cases D with
    | iface d => simp [Ty.base] at hP
    | root n l fs ms => simp [Ty.base] at hP
    | derived n b l fs ms =>
        simp only [Ty.base, Option.some.injEq] at hP
        subst hP
        simp only [Ty.methods] at hmem
        simp only [Ty.methodSlot, Ty.vtData]
        exact vtFold_fresh ms b.methodSlot b.vtableTokens m hnone hmem

theorem override_slot_stability_witness :
    (∃ s, alookup tA.methodSlot "m" = some s ∧ alookup tB.methodSlot "m" = some s) ∧
    (∃ s, alookup tC.methodSlot "p" = some s ∧ tB.vtableTokens.length ≤ s) :=
  ⟨(override_slot_stability tB tA "m").1 (by decide) (by decide),
   (override_slot_stability tC tB "p").2 tB rfl (by decide) (by decide)⟩

/-! ## C10: safety of the vtable dispatch path -/

/-- The only error _compile_plan itself raises is the unknown-field one. -/
theorem compilePlan_error_msg : ∀ (runtime : Ty) (tokens : List String) (e : String),
    compilePlan runtime tokens = Except.error e → e = "Unknown field in method" := by
  intro runtime tokens
  induction tokens with
  | nil =>
      intro e h
      simp [compilePlan] at h
  | cons t rest ih =>
      intro e h
      by_cases hit : isIntTok t
      · rcases hr : compilePlan runtime rest with e2 | pl
        · simp only [compilePlan, hit, if_true, hr, Except.error.injEq] at h
          exact h ▸ ih e2 hr
        · simp [compilePlan, hit, hr] at h
      · rcases hf : runtime.fieldIdx t with _ | idx
        · simp only [compilePlan, hit, Bool.false_eq_true, if_false, hf,
            Except.error.injEq] at h
          exact h.symm
        · rcases hr : compilePlan runtime rest with e2 | pl
          · simp only [compilePlan, hit, Bool.false_eq_true, if_false, hf, hr,
              Except.error.injEq] at h
            exact h ▸ ih e2 hr
          · simp [compilePlan, hit, hf, hr] at h

/-- C10: on the dynamic vtable dispatch path with a class view, once the
view-visibility check and the subclass check pass, the view's slot lookup
yields a slot that is always a valid index into the runtime type's
vtable; consequently the internal no-slot error branch (and the
out-of-range vtable access) of _resolve_call_plan is unreachable. -/
theorem vtable_slot_always_valid (view runtime : Ty) (m : String)
    (hwr : runtime.wfChain = true) (hvi : view.isInterface = false) :
    ((view.lookupMethod m).isSome →
      (runtime.isSubclassOf view = true ∨ runtime = view) →
      ∃ slot toks, alookup view.methodSlot m = some slot ∧
        runtime.vtableTokens.get? slot = some toks) ∧
    (∀ (cache : PlanCache) (cc : Bool),
      resolveCallPlan ⟨true, cc⟩ cache view runtime m true ≠
        Except.error "Internal: no slot for method in view" ∧
      resolveCallPlan ⟨true, cc⟩ cache view runtime m true ≠
        Except.error "Vtable slot out of range") := by
  have hmain : (view.lookupMethod m).isSome →
      (runtime.isSubclassOf view = true ∨ runtime = view) →
      ∃ slot toks, alookup view.methodSlot m = some slot ∧
        runtime.vtableTokens.get? slot = some toks := by
    intro hvis hsub
    have hchain : view ∈ runtime.chain := by
      rcases hsub with hsub | hsub
      · simp only [Ty.isSubclassOf, Bool.and_eq_true, decide_eq_true_eq] at hsub
        exact hsub.2
      · rw [hsub]
        exact chain_self view
    have hrifc : runtime.isInterface = false := by
      rcases hsub with hsub | hsub
      · simp only [Ty.isSubclassOf, Bool.and_eq_true] at hsub
        simpa using hsub.1.1
      · rw [hsub]
        exact hvi
    obtain ⟨slot, hslot⟩ := Option.isSome_iff_exists.mp ((methodSlot_isSome view m).mpr hvis)
    have hrslot := methodSlot_chain_pres runtime view hchain m slot hslot
    obtain ⟨hinv1, _⟩ := vt_slotInv runtime hwr hrifc
    obtain ⟨ts, hget, _⟩ := hinv1 m slot hrslot
    exact ⟨slot, ts, hslot, hget⟩
  refine ⟨hmain, ?_⟩
  intro cache cc
  by_cases hvism : view.lookupMethod m = none
  · constructor <;> simp [resolveCallPlan, hvism]
  · have hsome : (view.lookupMethod m).isSome := by
      rcases h : view.lookupMethod m with _ | v
      · exact absurd h hvism
      · simp
    simp only [resolveCallPlan, hvism, if_false, hvi, Bool.and_self, if_true,
      Bool.false_eq_true]
    rcases hcond : (!(runtime.isSubclassOf view) && !(decide (runtime = view))) with _ | _
    · have hsub : runtime.isSubclassOf view = true ∨ runtime = view := by
        rcases Bool.and_eq_false_iff.mp hcond with h | h
        · exact Or.inl (by simpa using h)
        · exact Or.inr (by simpa using h)
      obtain ⟨slot, toks, hslot, hget⟩ := hmain hsome hsub
      simp only [hslot, hget]
      rcases hcp : compilePlan runtime toks with e | pl
      · simp only [hcp]
        have he := compilePlan_error_msg runtime toks e hcp
        subst he
        constructor <;> simp
      · simp [hcp]
    · constructor <;> simp

theorem vtable_slot_always_valid_witness :
    ∃ slot toks, alookup tA.methodSlot "m" = some slot ∧
      tB.vtableTokens.get? slot = some toks :=
  (vtable_slot_always_valid tA tB "m" (by decide) rfl).1 (by decide) (Or.inl (by decide))

/-! ## C6: static calls through an interface view -/

/-- C6: for a static call whose view type is an interface (given the
implements check passes), resolution consults the interface's own
declared token map: a non-empty token sequence is compiled directly as a
default body (with 0 walk steps); a lookup yielding no usable tokens (an
explicitly empty list) falls back to the linear base-chain walk starting
at the runtime type; a method absent from the interface map never reaches
the fallback because the view-visibility type check fails first. -/
theorem static_interface_default_body (cfg : RCfg) (d : IfaceData) (runtime : Ty)
    (m : String) (himpl : runtime.implementsInterface (.iface d) = true) :
    (∀ ts p, alookup d.imethods m = some ts → ts ≠ [] →
      compilePlan runtime ts = Except.ok p →
      ∃ c2, resolveCallPlan cfg [] (.iface d) runtime m false = Except.ok (p, c2, 0)) ∧
    (∀ ts2 st p, alookup d.imethods m = some [] →
      runtime.lookupWithSteps m = (some ts2, st) →
      compilePlan runtime ts2 = Except.ok p →
      ∃ c2, resolveCallPlan cfg [] (.iface d) runtime m false = Except.ok (p, c2, st)) ∧
    (alookup d.imethods m = none →
      resolveCallPlan cfg [] (.iface d) runtime m false =
        Except.error "Method not found in view type or its bases") := by
  refine ⟨?_, ?_, ?_⟩
  · intro ts p hts hne hcp
    have hlm : ¬(Ty.lookupMethod (.iface d) m = none) := by
      simp [Ty.lookupMethod, hts]
    refine ⟨if cfg.enableCache then
        alistUpsert [] ("static", (Ty.iface d).name, runtime.name, m) p else [], ?_⟩
    have hsomene : ¬(some ts = some ([] : List String)) := by
      simpa using hne
    simp only [resolveCallPlan, hlm, if_false, Bool.false_and, Bool.false_eq_true,
      alookup, ite_self, fallbackTokens, Bool.not_false, if_true, Ty.isInterface,
      himpl, Bool.not_true, Ty.lookupWithSteps, hts, hsomene, or_self, hcp]
    simp [hsomene, hcp]
  · intro ts2 st p hts hlws hcp
    have hlm : ¬(Ty.lookupMethod (.iface d) m = none) := by
      simp [Ty.lookupMethod, hts]
    refine ⟨if cfg.enableCache then
        alistUpsert [] ("static", (Ty.iface d).name, runtime.name, m) p else [], ?_⟩
    simp only [resolveCallPlan, hlm, if_false, Bool.false_and, Bool.false_eq_true,
      alookup, ite_self, fallbackTokens, Bool.not_false, if_true, Ty.isInterface,
      himpl, Bool.not_true, Ty.lookupWithSteps, hts, hlws, hcp]
    simp [hcp]
  · intro habsent
    have hlm : Ty.lookupMethod (.iface d) m = none := by
      simpa [Ty.lookupMethod] using habsent
    simp [resolveCallPlan, hlm]

theorem static_interface_default_body_witness :
    (∃ c2, resolveCallPlan ⟨false, true⟩ [] (.iface iI) tC "q" false =
      Except.ok ([(false, 7)], c2, 0)) ∧
    (∃ c2, resolveCallPlan ⟨false, true⟩ [] (.iface iI) tC "p" false =
      Except.ok ([(false, 3)], c2, 0)) :=
  ⟨(static_interface_default_body ⟨false, true⟩ iI tC "q" (by decide)).1
      ["7"] [(false, 7)] rfl (by decide) rfl,
   (static_interface_default_body ⟨false, true⟩ iI tC "p" (by decide)).2.1
      ["3"] 0 [(false, 3)] rfl rfl rfl⟩

/-! ## C1: equivalence of dispatch strategies -/

/-- On a successful cold itable build, the plan stored at each slot is the
compilation of the tokens the linear walk from the runtime type finds for
that slot's method. -/
theorem itableBuild_get : ∀ (runtime : Ty) (L : List (String × Nat)) (ps : List MethodPlan)
    (st : Nat), itableBuild runtime L = Except.ok (ps, st) →
    ∀ idx mm sl, L.get? idx = some (mm, sl) →
    ∃ ts pp, (runtime.lookupWithSteps mm).1 = some ts ∧
      compilePlan runtime ts = Except.ok pp ∧ ps.get? idx = some pp := by
  intro runtime L
  induction L with
  | nil =>
      intro ps st h idx mm sl hidx
      simp at hidx
  | cons e rest ih =>
      intro ps st h idx mm sl hidx
      obtain ⟨k, s0⟩ := e
      simp only [itableBuild] at h
      rcases hl : (runtime.lookupWithSteps k).1 with _ | ts
      · rw [hl] at h
        exact absurd h (by simp)
      · rw [hl] at h
        have h2 : (match compilePlan runtime ts with
            | Except.error e => Except.error e
            | Except.ok p =>
              match itableBuild runtime rest with
              | Except.error e => Except.error e
              | Except.ok (ps2, st2) =>
                  Except.ok (p :: ps2, (runtime.lookupWithSteps k).2 + st2)) =
            Except.ok (ps, st) := h
        clear h
        rcases hcp : compilePlan runtime ts with e2 | pp
        · rw [hcp] at h2
          exact absurd h2 (by simp)
        · rw [hcp] at h2
          have h3 : (match itableBuild runtime rest with
              | Except.error e => Except.error e
              | Except.ok (ps2, st2) =>
                  Except.ok (pp :: ps2, (runtime.lookupWithSteps k).2 + st2)) =
              Except.ok (ps, st) := h2
          clear h2
          rcases hb : itableBuild runtime rest with e2 | pr
          · rw [hb] at h3
            exact absurd h3 (by simp)
          · obtain ⟨ps2, st2⟩ := pr
            rw [hb] at h3
            simp only [Except.ok.injEq, Prod.mk.injEq] at h3
            obtain ⟨hps, _⟩ := h3
            cases idx with
            | zero =>
                obtain ⟨hk, _⟩ : k = mm ∧ s0 = sl := by simpa using hidx
                subst hk
                refine ⟨ts, pp, hl, hcp, ?_⟩
                rw [← hps]
                rfl
            | succ idx2 =>
                obtain ⟨ts3, pp3, h1, h2, h3⟩ :=
                  ih ps2 st2 hb idx2 mm sl (by simpa using hidx)
                refine ⟨ts3, pp3, h1, h2, ?_⟩
                rw [← hps]
                simpa using h3

/-- C1: at every call site where both the vtable/itable fast path and the
linear fallback path succeed for the same (view, runtime, method), the
two resolved plans are identical, hence the evaluated integer value
sequence (the printed output) is identical: the dispatch strategy never
changes observable output. -/
theorem dispatch_strategy_equivalence (view runtime : Ty) (m : String)
    (hwr : runtime.wfChain = true)
    (p q : MethodPlan) (c1 c2 : PlanCache) (s1 s2 : Nat)
    (hfast : resolveCallPlan ⟨true, true⟩ [] view runtime m true = Except.ok (p, c1, s1))
    (hslow : resolveCallPlan ⟨false, true⟩ [] view runtime m true = Except.ok (q, c2, s2)) :
    p = q ∧ ∀ values, evalPlan values p = evalPlan values q := by
  suffices hpq : p = q by
    exact ⟨hpq, fun values => by rw [hpq]⟩
  by_cases hlm : view.lookupMethod m = none
  · simp [resolveCallPlan, hlm] at hfast
  -- extract the slow path: a linear walk from the runtime type
  have hslowtk : ∃ toks2 st, runtime.lookupWithSteps m = (some toks2, st) ∧
      compilePlan runtime toks2 = Except.ok q := by
    simp only [resolveCallPlan, hlm, if_false, Bool.and_false, Bool.false_eq_true,
      alookup, ite_self, fallbackTokens, Bool.not_true] at hslow
    rcases hcond : (view.isInterface && !(runtime.implementsInterface view)) with _ | _
    · rw [hcond] at hslow
      simp only [Bool.false_eq_true, if_false] at hslow
      rcases hr : runtime.lookupWithSteps m with ⟨tk, st⟩
      rw [hr] at hslow
      rcases tk with _ | toks2
      · exact absurd hslow (by simp)
      · simp only at hslow
        rcases hcp : compilePlan runtime toks2 with e | pl
        · rw [hcp] at hslow
          exact absurd hslow (by simp)
        · rw [hcp] at hslow
          simp only [Except.ok.injEq, Prod.mk.injEq] at hslow
          exact ⟨toks2, st, rfl, by rw [hcp, hslow.1]⟩

    · rw [hcond] at hslow
      simp at hslow
  obtain ⟨toks2, st, hr, hcq⟩ := hslowtk
  by_cases hvi : view.isInterface = true
  · -- interface view: itable fast path vs runtime walk
    cases view with
    | root nv lv fv mv => simp [Ty.isInterface] at hvi
    | derived nv bv lv fv mv => simp [Ty.isInterface] at hvi
    | iface d =>
        rcases himpl : runtime.implementsInterface (.iface d) with _ | _
        · simp [resolveCallPlan, hlm, himpl, Ty.isInterface] at hfast
        · simp only [resolveCallPlan, hlm, if_false, Bool.and_self, Ty.isInterface,
            if_true, himpl, Bool.not_true, Bool.false_eq_true, itablePlan] at hfast
          rcases hib : itableBuild runtime (Ty.iface d).methodSlot with e | pr
          · rw [hib] at hfast
            exact absurd hfast (by simp)
          · obtain ⟨plans, st0⟩ := pr
            rw [hib] at hfast
            simp only at hfast
            rcases hslot : alookup (Ty.iface d).methodSlot m with _ | slot
            · rw [hslot] at hfast
              exact absurd hfast (by simp)
            · rw [hslot] at hfast
              simp only at hfast
              rcases hg : plans.get? slot with _ | p0
              · rw [hg] at hfast
                exact absurd hfast (by simp)
              · rw [hg] at hfast
                simp only [Except.ok.injEq, Prod.mk.injEq] at hfast
                have henumget := enumSlotsFrom_get d.imethods 0 m slot
                  (by simpa [Ty.methodSlot, Ty.vtData] using hslot)
                rw [Nat.sub_zero] at henumget
                obtain ⟨ts, pp, hfst, hcpp, hpsg⟩ := itableBuild_get runtime
                  (Ty.iface d).methodSlot plans st0 hib slot m slot
                  (by simpa [Ty.methodSlot, Ty.vtData] using henumget)
                have htoks : toks2 = ts := by
                  rw [hr] at hfst
                  simpa using hfst
                have hp0 : p0 = pp := by
                  rw [hpsg] at hg
                  simpa using hg.symm
                rw [← hfast.1, hp0]
                rw [htoks] at hcq
                rw [hcpp] at hcq
                simpa using hcq
  · -- class view: vtable fast path vs runtime walk
    have hvif : view.isInterface = false := by simpa using hvi
    simp only [resolveCallPlan, hlm, if_false, Bool.and_self, if_true, hvif,
      Bool.false_eq_true] at hfast
    rcases hcond : (!(runtime.isSubclassOf view) && !(decide (runtime = view))) with _ | _
    · rw [hcond] at hfast
      simp only [Bool.false_eq_true, if_false] at hfast
      rcases hslot : alookup view.methodSlot m with _ | slot
      · rw [hslot] at hfast
        exact absurd hfast (by simp)
      · rw [hslot] at hfast
        simp only at hfast
        rcases hg : runtime.vtableTokens.get? slot with _ | toks
        · rw [hg] at hfast
          exact absurd hfast (by simp)
        · rw [hg] at hfast
          simp only at hfast
          rcases hcp : compilePlan runtime toks with e | pl
          · rw [hcp] at hfast
            exact absurd hfast (by simp)
          · rw [hcp] at hfast
            simp only [Except.ok.injEq, Prod.mk.injEq] at hfast
            have hsub : runtime.isSubclassOf view = true ∨ runtime = view := by
              rcases Bool.and_eq_false_iff.mp hcond with h | h
              · exact Or.inl (by simpa using h)
              · exact Or.inr (by simpa using h)
            have hchain : view ∈ runtime.chain := by
              rcases hsub with hsub | hsub
              · simp only [Ty.isSubclassOf, Bool.and_eq_true, decide_eq_true_eq] at hsub
                exact hsub.2
              · rw [hsub]
                exact chain_self view
            have hrifc : runtime.isInterface = false := by
              rcases hsub with hsub | hsub
              · simp only [Ty.isSubclassOf, Bool.and_eq_true] at hsub
                simpa using hsub.1.1
              · rw [hsub]
                exact hvif
            have hrslot := methodSlot_chain_pres runtime view hchain m slot hslot
            obtain ⟨ts, hget2, hlook⟩ := (vt_slotInv runtime hwr hrifc).1 m slot hrslot
            have htoks : toks = ts := by
              rw [hget2] at hg
              simpa using hg.symm
            have htoks2 : toks2 = ts := by
              have hfst := lookupWithSteps_fst runtime m
              rw [hr, hlook] at hfst
              simpa using hfst
            rw [htoks] at hcp
            rw [htoks2] at hcq
            rw [hcp] at hcq
            have hplq : pl = q := by simpa using hcq
            rw [← hfast.1]
            exact hplq
    · rw [hcond] at hfast
      exact absurd hfast (by simp)

theorem dispatch_strategy_equivalence_witness :
    ([(true, (1 : Int)), (false, 2)] : MethodPlan) = [(true, 1), (false, 2)] ∧
    ∀ values, evalPlan values [(true, (1 : Int)), (false, 2)] =
      evalPlan values [(true, 1), (false, 2)] :=
  dispatch_strategy_equivalence tA tB "m" (by decide)
    [(true, 1), (false, 2)] [(true, 1), (false, 2)]
    [] [(("dyn", "A", "B", "m"), [(true, 1), (false, 2)])] 0 0 rfl rfl

end RAFOOpp
